import Mathlib

/-!
Shallow embedding of the `whiskers` repository's connection pool
(`src/python/whiskers/ddbc_bindings.py`, class `_ConnectionPool`) and result
row type (`src/python/whiskers/row.py`, class `Row`), with theorems settling
the specification claims about them.

Modelling conventions:
  * connections are identified by natural numbers; the pool never inspects
    them beyond `close()` and the liveness probe, so an id suffices;
  * monotonic timestamps and the idle timeout are integers;
  * side effects (lock acquire/release, liveness probes, `close()` calls)
    are recorded in an event trace returned next to the result;
  * a probe that raises is modelled by the oracle `p conn = false`
    (the source catches the exception and treats the entry as dead);
  * a `close()` that raises is modelled by the oracle `cr conn = true`.
    In `get` and `disable` every `close()` is wrapped in
    `try: conn.close() except Exception: pass`, so close failures cannot
    influence behaviour and those operations are total functions that do not
    take the oracle.  In `put` the two `conn.close()` calls are bare, so
    `put` returns a Boolean "an exception propagated to the caller" flag.
-/

/-- Events emitted by pool operations: taking and releasing the pool's single
lock, liveness probes (`conn.alloc_statement_handle().free()`), and
`conn.close()` calls. -/
inductive Ev where
  | acquire
  | release
  | probe (conn : Nat)
  | close (conn : Nat)
deriving DecidableEq, Repr

/-- A pooled entry `(conn, returned_at)`: the tuple appended by
`_ConnectionPool.put`. -/
abbrev PoolEntry := Nat × Int

/-- State of `_ConnectionPool`: per-key entry lists (`self._pools`), the
enabled flag, and the configured limits. -/
structure PoolState where
  pools : List (String × List PoolEntry)
  enabled : Bool
  max_size : Nat
  idle_timeout : Int
deriving DecidableEq, Repr

/-- Association-list lookup, modelling Python dict indexing by key. -/
def alookup {α : Type} (key : String) : List (String × α) → Option α
  | [] => none
  | (k, v) :: rest => if k = key then some v else alookup key rest

/-- Association-list update, modelling in-place mutation of the list stored
under `key` (inserting the key when absent, as `defaultdict` does). -/
def listSet {α : Type} (key : String) (v : α) : List (String × α) → List (String × α)
  | [] => [(key, v)]
  | (k, w) :: rest => if k = key then (k, v) :: rest else (k, w) :: listSet key v rest

/-- The list stored for `key`, empty when the key is absent
(`self._pools.get(conn_str, [])`). -/
def keyPool (s : PoolState) (key : String) : List PoolEntry :=
  (alookup key s.pools).getD []

/-- Number of entries currently pooled for `key`. -/
def keyCount (s : PoolState) (key : String) : Nat :=
  (keyPool s key).length

/-- Every connection currently pooled, across every key. -/
def poolConns (s : PoolState) : List Nat :=
  s.pools.flatMap (fun kv => kv.2.map Prod.fst)

/-- The `_ConnectionPool.__init__` state: disabled, `max_size=100`,
`idle_timeout=600`. -/
def initPool : PoolState :=
  { pools := [], enabled := false, max_size := 100, idle_timeout := 600 }

/-- `_ConnectionPool.enable(max_size, idle_timeout)`: flips the flag and
overwrites both limits; takes no lock and touches no entry. -/
def PoolState.enable (s : PoolState) (max_size : Nat) (idle_timeout : Int) : PoolState :=
  { s with enabled := true, max_size := max_size, idle_timeout := idle_timeout }

/-- `_ConnectionPool.disable()`: clears the enabled flag, then under the lock
closes every pooled connection (each `close` wrapped in
`try ... except Exception: pass`) and clears the dict. -/
def PoolState.disable (s : PoolState) : PoolState × List Ev :=
  ({ s with enabled := false, pools := [] },
   Ev.acquire :: ((poolConns s).map Ev.close ++ [Ev.release]))

/-- The `while pool:` loop of `_ConnectionPool.get`, run on the entry list
reversed so that the Python `pool.pop()` (remove the last, most recently
returned entry) is head removal.  Returns the result, the entries still
stored (still reversed), and the probe/close events in order.  A stale entry
(`now - returned_at >= idle_timeout`) is closed without a probe; a fresh
entry is probed, and on probe failure closed; every `close` here is wrapped
in `try ... except Exception: pass` in the source, so close failures cannot
alter the outcome. -/
def getLoopRev (p : Nat → Bool) (now timeout : Int) :
    List PoolEntry → Option Nat × List PoolEntry × List Ev
  | [] => (none, [], [])
  | (conn, returned_at) :: rest =>
    if now - returned_at < timeout then
      if p conn then
        (some conn, rest, [Ev.probe conn])
      else
        let r := getLoopRev p now timeout rest
        (r.1, r.2.1, Ev.probe conn :: Ev.close conn :: r.2.2)
    else
      let r := getLoopRev p now timeout rest
      (r.1, r.2.1, Ev.close conn :: r.2.2)

/-- `_ConnectionPool.get(conn_str)`: `None` when disabled; otherwise the whole
search runs inside `with self._lock:`.  `now` is the monotonic clock read
taken inside the lock.  Writing the remaining entries back with `listSet`
models the in-place mutation of the stored list (for an absent key the
written-back empty list is observationally identical through
`alookup`/`getD`). -/
def PoolState.get (s : PoolState) (key : String) (now : Int) (p : Nat → Bool) :
    Option Nat × PoolState × List Ev :=
  if !s.enabled then
    (none, s, [])
  else
    let r := getLoopRev p now s.idle_timeout (keyPool s key).reverse
    (r.1, { s with pools := listSet key r.2.1.reverse s.pools },
     Ev.acquire :: (r.2.2 ++ [Ev.release]))

/-- `_ConnectionPool.put(conn_str, conn)`: when disabled, closes the incoming
connection with a bare `conn.close()` (no lock, no exception handler); when
enabled, under the lock appends `(conn, now)` if there is room and otherwise
closes the incoming connection with a bare `conn.close()`.  The Boolean in
the result is true when that bare `close` raised, i.e. when an exception
propagates to `put`'s caller (the `with` block still releases the lock). -/
def PoolState.put (s : PoolState) (key : String) (conn : Nat) (now : Int)
    (cr : Nat → Bool) : PoolState × Bool × List Ev :=
  if !s.enabled then
    (s, cr conn, [Ev.close conn])
  else
    let pool := keyPool s key
    if pool.length < s.max_size then
      ({ s with pools := listSet key (pool ++ [(conn, now)]) s.pools },
       false, [Ev.acquire, Ev.release])
    else
      (s, cr conn, [Ev.acquire, Ev.close conn, Ev.release])

/-- One pool operation, for quantifying over operation sequences. -/
inductive PoolOp where
  | enable (max_size : Nat) (idle_timeout : Int)
  | disable
  | get (key : String) (now : Int) (p : Nat → Bool)
  | put (key : String) (conn : Nat) (now : Int) (cr : Nat → Bool)

/-- State transition of one pool operation. -/
def runOp (s : PoolState) : PoolOp → PoolState
  | PoolOp.enable m t => s.enable m t
  | PoolOp.disable => (s.disable).1
  | PoolOp.get k now p => (s.get k now p).2.1
  | PoolOp.put k c now cr => (s.put k c now cr).1

/-- Run a sequence of pool operations from a starting state. -/
def runOps (s : PoolState) (ops : List PoolOp) : PoolState :=
  ops.foldl runOp s

/-- Capacity invariant claimed by the spec: no key ever holds more entries
than the currently configured `max_size`. -/
def PoolCapInv (s : PoolState) : Prop :=
  ∀ key, keyCount s key ≤ s.max_size

/-- Checks that every probe and close event in a trace happens while the lock
is held (`d` is the current hold depth). -/
def trace_ops_locked : Nat → List Ev → Bool
  | _, [] => true
  | d, Ev.acquire :: r => trace_ops_locked (d + 1) r
  | d, Ev.release :: r => trace_ops_locked (d - 1) r
  | d, Ev.probe _ :: r => decide (0 < d) && trace_ops_locked d r
  | d, Ev.close _ :: r => decide (0 < d) && trace_ops_locked d r

/-- Checks that every probe and close event in a trace happens while the lock
is NOT held (what claim C10 asserts of `get` and `put`). -/
def trace_ops_unlocked : Nat → List Ev → Bool
  | _, [] => true
  | d, Ev.acquire :: r => trace_ops_unlocked (d + 1) r
  | d, Ev.release :: r => trace_ops_unlocked (d - 1) r
  | d, Ev.probe _ :: r => decide (d = 0) && trace_ops_unlocked d r
  | d, Ev.close _ :: r => decide (d = 0) && trace_ops_unlocked d r

/-!  Row (`src/python/whiskers/row.py`).  Column values are modelled by a
small dynamic value type covering the cases the code distinguishes
(`None`, numbers, `str`, `bytes`). -/

/-- A column value as seen by `Row`. -/
inductive Value where
  | vNone
  | vInt (n : Int)
  | vStr (s : String)
  | vBytes (b : List Nat)
deriving DecidableEq, Repr

/-- A column descriptor; the code reads `desc[1]`, the SQL type code. -/
structure Desc where
  name : String
  sql_type : Int
deriving DecidableEq, Repr

/-- The slice of the owning cursor a `Row` observes: the `lowercase` flag
(`hasattr(cursor, 'lowercase') and cursor.lowercase` collapsed to one
Boolean), `cursor.description`, and the connection's output-converter
registry `cursor.connection.get_output_converter`, where a converter
returning `none` models the converter raising. -/
structure Cursor where
  lowercase : Bool
  description : Option (List (Option Desc))
  get_output_converter : Int → Option (Value → Option Value)

/-- `Row.__init__(cursor, description, values, column_map)`: stores the
values, the optional name-to-position map, and the cursor back-reference,
with no eager conversion and no validation. -/
structure Row where
  values : List Value
  column_map : Option (List (String × Nat))
  cursor_ref : Cursor

/-- Outcome of `Row.__getattr__`: a value, or the Python exception kind the
code raises (`AttributeError` naming the requested column, `IndexError` from
indexing `_values` with a bad position, `TypeError` from iterating a `None`
column map). -/
inductive AttrResult where
  | ok (v : Value)
  | attributeError (name : String)
  | indexError
  | typeError
deriving DecidableEq, Repr

/-- Python `str.lower()`, modelled as per-character lowering. -/
def strLower (s : String) : String :=
  String.mk (s.data.map Char.toLower)

/-- `Row.__getattr__(name)`: exact-case hit in the column map first; on a
miss, when the owning cursor's `lowercase` flag is set, a case-folded linear
scan over the map in declaration order; otherwise `AttributeError` naming the
column.  (When the column map is `None` and the `lowercase` flag is set the
source iterates over `None`, a `TypeError`.) -/
def Row.getattr (r : Row) (name : String) : AttrResult :=
  match r.column_map with
  | some m =>
    match alookup name m with
    | some pos =>
      match r.values[pos]? with
      | some v => AttrResult.ok v
      | none => AttrResult.indexError
    | none =>
      if r.cursor_ref.lowercase then
        match m.find? (fun q => strLower q.1 == strLower name) with
        | some q =>
          match r.values[q.2]? with
          | some v => AttrResult.ok v
          | none => AttrResult.indexError
        | none => AttrResult.attributeError name
      else AttrResult.attributeError name
  | none =>
    if r.cursor_ref.lowercase then AttrResult.typeError
    else AttrResult.attributeError name

/-- The right-hand operand of `Row.__eq__`: a plain list of values, another
`Row`, or any other object (for which Python falls back to the default
identity comparison; `sameObject` records whether the operand is the very
same object). -/
inductive PyOperand where
  | list (l : List Value)
  | row (r : Row)
  | other (sameObject : Bool)

/-- `Row.__eq__`: elementwise comparison against a plain list
(`list(self._values) == other`), comparison of the underlying value
sequences against another `Row`, and the default identity-like comparison
for anything else (`super().__eq__(other)`). -/
def Row.eq (r : Row) (o : PyOperand) : Bool :=
  match o with
  | PyOperand.list l => r.values == l
  | PyOperand.row r2 => r.values == r2.values
  | PyOperand.other same => same

/-- Modelled from the spec: `whiskers.constants.ConstantsDDBC.SQL_WVARCHAR`
(the module is not under `src/`), the "wide variable-length character" SQL
type code used as the converter fallback for textual/binary values; ODBC
assigns it -9. -/
def SQL_WVARCHAR : Int := -9

/-- Python `isinstance(value, (str, bytes))`. -/
def isStrOrBytes : Value → Bool
  | Value.vStr _ => true
  | Value.vBytes _ => true
  | _ => false

/-- UTF-16LE code units of one character, as bytes. -/
def charUtf16 (c : Char) : List Nat :=
  let n := c.toNat
  if n < 0x10000 then
    [n % 256, n / 256]
  else
    let m := n - 0x10000
    let hi := 0xD800 + m / 0x400
    let lo := 0xDC00 + m % 0x400
    [hi % 256, hi / 256, lo % 256, lo / 256]

/-- Python `value.encode('utf-16-le')`. -/
def utf16le (s : String) : List Nat :=
  (s.data.map charUtf16).flatten

/-- The argument actually passed to a converter: textual input is first
re-encoded to UTF-16LE bytes, everything else is passed through. -/
def convInput : Value → Value
  | Value.vStr s => Value.vBytes (utf16le s)
  | v => v

/-- The body of the `for i, (value, desc) in enumerate(zip(values,
description))` loop of `Row._apply_output_converters` for one position:
skip when the descriptor or the value is `None`; look up a converter for the
declared SQL type, falling back to the `SQL_WVARCHAR` entry for textual or
binary values; invoke it (on the UTF-16LE bytes for `str` input) inside
`try ... except Exception: pass`, keeping the original value when it
raises (`Option.getD`). -/
def convertOne (cur : Cursor) (value : Value) (desc : Option Desc) : Value :=
  match desc, value with
  | none, _ => value
  | some _, Value.vNone => value
  | some d, v =>
    let converter :=
      match cur.get_output_converter d.sql_type with
      | some c => some c
      | none =>
        if isStrOrBytes v then cur.get_output_converter SQL_WVARCHAR else none
    match converter with
    | none => v
    | some c =>
      match v with
      | Value.vStr str => (c (Value.vBytes (utf16le str))).getD v
      | _ => (c v).getD v

/-- The `zip(values, description)` traversal with in-place writes: positions
beyond the shorter list are left unchanged. -/
def convertZip (cur : Cursor) : List Value → List (Option Desc) → List Value
  | [], _ => []
  | vs, [] => vs
  | v :: vs, d :: ds => convertOne cur v d :: convertZip cur vs ds

/-- `Row._apply_output_converters(cursor, description)`: returns immediately
when `description` is falsy (`None` or empty), otherwise rewrites the value
list position by position. -/
def Row.apply_output_converters (r : Row) (cur : Cursor)
    (description : Option (List (Option Desc))) : Row :=
  match description with
  | none => r
  | some [] => r
  | some ds => { r with values := convertZip cur r.values ds }

/-- Modelled from the spec: the cursor fetch path that constructs `Row`s is
not under `src/` (only `Row.__init__` is); per the spec it builds, for each
fetched record, a column map with one entry per descriptor mapping the
column's name to its position, and one raw value per descriptor. -/
def mkRow (cur : Cursor) (descs : List Desc) (vals : List Value) : Row :=
  { values := vals,
    column_map := some (descs.enum.map (fun q => (q.2.name, q.1))),
    cursor_ref := cur }

/-- The length invariant claimed of `Row`: when the column map and the
cursor's descriptors are both present, the value sequence, the column map
and the descriptor list all have the same length. -/
def RowLens (r : Row) : Prop :=
  ∀ m ds, r.column_map = some m → r.cursor_ref.description = some ds →
    r.values.length = m.length ∧ m.length = ds.length

/-! ### Helper lemmas about the pool embedding -/

theorem alookup_listSet_self {α : Type} (key : String) (v : α) (ps : List (String × α)) :
    alookup key (listSet key v ps) = some v := by
  induction ps with
  | nil => simp [listSet, alookup]
  | cons kv rest ih =>
    obtain ⟨k, w⟩ := kv
    by_cases h : k = key
    · simp [listSet, h, alookup]
    · simp [listSet, h, alookup, ih]

theorem alookup_listSet_ne {α : Type} {k' key : String} (h : k' ≠ key) (v : α)
    (ps : List (String × α)) : alookup k' (listSet key v ps) = alookup k' ps := by
  induction ps with
  | nil =>
    have hkk : ¬ key = k' := fun hh => h hh.symm
    simp [listSet, alookup, hkk]
  | cons kv rest ih =>
    obtain ⟨k, w⟩ := kv
    by_cases hk : k = key
    · subst hk
      have hkk : ¬ k = k' := fun hh => h hh.symm
      simp [listSet, alookup, hkk]
    · simp [listSet, hk, alookup, ih]

theorem getLoopRev_cons_fresh_ok {p : Nat → Bool} {now timeout : Int} {conn : Nat} {rt : Int}
    {rest : List PoolEntry} (h1 : now - rt < timeout) (h2 : p conn = true) :
    getLoopRev p now timeout ((conn, rt) :: rest) = (some conn, rest, [Ev.probe conn]) := by
  simp [getLoopRev, h1, h2]

theorem getLoopRev_cons_fresh_bad {p : Nat → Bool} {now timeout : Int} {conn : Nat} {rt : Int}
    {rest : List PoolEntry} (h1 : now - rt < timeout) (h2 : p conn = false) :
    getLoopRev p now timeout ((conn, rt) :: rest) =
      ((getLoopRev p now timeout rest).1, (getLoopRev p now timeout rest).2.1,
       Ev.probe conn :: Ev.close conn :: (getLoopRev p now timeout rest).2.2) := by
  simp [getLoopRev, h1, h2]

theorem getLoopRev_cons_stale {p : Nat → Bool} {now timeout : Int} {conn : Nat} {rt : Int}
    {rest : List PoolEntry} (h1 : ¬ now - rt < timeout) :
    getLoopRev p now timeout ((conn, rt) :: rest) =
      ((getLoopRev p now timeout rest).1, (getLoopRev p now timeout rest).2.1,
       Ev.close conn :: (getLoopRev p now timeout rest).2.2) := by
  simp [getLoopRev, h1]

theorem getLoopRev_rem_length (p : Nat → Bool) (now timeout : Int) (l : List PoolEntry) :
    (getLoopRev p now timeout l).2.1.length ≤ l.length := by
  induction l with
  | nil => simp [getLoopRev]
  | cons e rest ih =>
    obtain ⟨conn, rt⟩ := e
    by_cases h1 : now - rt < timeout
    · cases h2 : p conn
      · rw [getLoopRev_cons_fresh_bad h1 h2]
        exact le_trans ih (Nat.le_succ _)
      · rw [getLoopRev_cons_fresh_ok h1 h2]
        exact Nat.le_succ _
    · rw [getLoopRev_cons_stale h1]
      exact le_trans ih (Nat.le_succ _)

/-! ### Claim C1: per-key capacity bound -/

/-- Operation sequence exhibiting a pool that holds more entries for a key
than the currently configured `max_size`: three connections are stored under
`max_size = 3`, then `enable` lowers `max_size` to 1 without evicting. -/
def overCapOps : List PoolOp :=
  [PoolOp.enable 3 100,
   PoolOp.put "k" 1 0 (fun _ => false),
   PoolOp.put "k" 2 0 (fun _ => false),
   PoolOp.put "k" 3 0 (fun _ => false),
   PoolOp.enable 1 100]

/-- Claim C1 is false as stated: after `overCapOps` the pool holds 3 entries
for key "k" while the configured `max_size` is 1, so "the pool never holds
more than M entries for that key" fails for this sequence of
enable/get/put operations. -/
theorem C1_counterexample :
    keyCount (runOps initPool overCapOps) "k" = 3 ∧
      (runOps initPool overCapOps).max_size = 1 ∧
      ¬ keyCount (runOps initPool overCapOps) "k" ≤ (runOps initPool overCapOps).max_size := by
  refine ⟨by decide, by decide, by decide⟩

/-- Claim C1 (amended): a `put` performed while the key's entry count is at
least the configured `max_size` closes the incoming connection immediately
and does not store it (the state is unchanged); and every operation
preserves the per-key capacity bound `keyCount ≤ max_size`, except that an
`enable` call may lower `max_size` below an existing key's entry count — the
bound is preserved whenever each `enable`'s new `max_size` is at least every
key's current entry count. -/
theorem C1_theorem :
    (∀ (s : PoolState) (key : String) (conn : Nat) (now : Int) (cr : Nat → Bool),
        s.enabled = true → s.max_size ≤ keyCount s key →
        s.put key conn now cr = (s, cr conn, [Ev.acquire, Ev.close conn, Ev.release])) ∧
    (∀ (s : PoolState) (op : PoolOp), PoolCapInv s →
        (∀ m t, op = PoolOp.enable m t → ∀ key, keyCount s key ≤ m) →
        PoolCapInv (runOp s op)) := by
  constructor
  · intro s key conn now cr he hfull
    have hnl : ¬ (keyPool s key).length < s.max_size := Nat.not_lt.mpr hfull
    simp [PoolState.put, he, hnl]
  · intro s op hinv henable
    cases op with
    | enable m t =>
      intro key
      have h := henable m t rfl key
      simpa [runOp, PoolState.enable, keyCount, keyPool] using h
    | disable =>
      intro key
      simp [runOp, PoolState.disable, keyCount, keyPool, alookup]
    | get k now p =>
      intro key
      cases hse : s.enabled with
      | false => simpa [runOp, PoolState.get, hse] using hinv key
      | true =>
        simp only [runOp, PoolState.get, hse, Bool.not_true, Bool.false_eq_true,
          if_false]
        by_cases hk : key = k
        · subst hk
          have hlen := getLoopRev_rem_length p now s.idle_timeout (keyPool s key).reverse
          simp only [keyCount, keyPool, alookup_listSet_self, Option.getD_some]
          calc (getLoopRev p now s.idle_timeout (keyPool s key).reverse).2.1.reverse.length
              = (getLoopRev p now s.idle_timeout (keyPool s key).reverse).2.1.length := by
                simp
            _ ≤ (keyPool s key).reverse.length := hlen
            _ = keyCount s key := by simp [keyCount]
            _ ≤ s.max_size := hinv key
        · have := hinv key
          simpa [keyCount, keyPool, alookup_listSet_ne hk] using this
    | put k c now cr =>
      intro key
      cases hse : s.enabled with
      | false => simpa [runOp, PoolState.put, hse] using hinv key
      | true =>
        by_cases hroom : (keyPool s k).length < s.max_size
        · simp only [runOp, PoolState.put, hse, Bool.not_true, Bool.false_eq_true,
            if_false, hroom, if_true]
          by_cases hk : key = k
          · subst hk
            simp only [keyPool] at hroom
            simp only [keyCount, keyPool, alookup_listSet_self, Option.getD_some,
              List.length_append, List.length_cons, List.length_nil]
            omega
          · have := hinv key
            simpa [keyCount, keyPool, alookup_listSet_ne hk] using this
        · simpa [runOp, PoolState.put, hse, hroom] using hinv key

/-- Witness for C1's amended theorem: a pool at capacity (one entry, capacity
one) rejects and closes connection 7, leaving its state unchanged. -/
theorem C1_witness :
    PoolState.put
        { pools := [("k", [(5, 0)])], enabled := true, max_size := 1, idle_timeout := 10 }
        "k" 7 3 (fun _ => false)
      = ({ pools := [("k", [(5, 0)])], enabled := true, max_size := 1, idle_timeout := 10 },
         false, [Ev.acquire, Ev.close 7, Ev.release]) :=
  C1_theorem.1
    { pools := [("k", [(5, 0)])], enabled := true, max_size := 1, idle_timeout := 10 }
    "k" 7 3 (fun _ => false) rfl (by decide)

/-! ### Claim C2: idle entries are discarded, not returned -/

theorem getLoopRev_ret_mem {p : Nat → Bool} {now timeout : Int} {l : List PoolEntry} {c : Nat}
    (h : (getLoopRev p now timeout l).1 = some c) :
    ∃ rt, (c, rt) ∈ l ∧ now - rt < timeout ∧ p c = true := by
  induction l with
  | nil => simp [getLoopRev] at h
  | cons e rest ih =>
    obtain ⟨conn, rt'⟩ := e
    by_cases h1 : now - rt' < timeout
    · cases h2 : p conn with
      | false =>
        rw [getLoopRev_cons_fresh_bad h1 h2] at h
        obtain ⟨rt, hm, hf, hp⟩ := ih h
        exact ⟨rt, by simp [hm], hf, hp⟩
      | true =>
        rw [getLoopRev_cons_fresh_ok h1 h2] at h
        simp only [Option.some.injEq] at h
        subst h
        exact ⟨rt', by simp, h1, h2⟩
    · rw [getLoopRev_cons_stale h1] at h
      obtain ⟨rt, hm, hf, hp⟩ := ih h
      exact ⟨rt, by simp [hm], hf, hp⟩

theorem getLoopRev_probe_mem {p : Nat → Bool} {now timeout : Int} {l : List PoolEntry} {c : Nat}
    (h : Ev.probe c ∈ (getLoopRev p now timeout l).2.2) :
    ∃ rt, (c, rt) ∈ l ∧ now - rt < timeout := by
  induction l with
  | nil => simp [getLoopRev] at h
  | cons e rest ih =>
    obtain ⟨conn, rt'⟩ := e
    by_cases h1 : now - rt' < timeout
    · cases h2 : p conn with
      | false =>
        rw [getLoopRev_cons_fresh_bad h1 h2] at h
        simp only [List.mem_cons, Ev.probe.injEq, reduceCtorEq, false_or] at h
        rcases h with h | h
        · subst h; exact ⟨rt', by simp, h1⟩
        · obtain ⟨rt, hm, hf⟩ := ih h
          exact ⟨rt, by simp [hm], hf⟩
      | true =>
        rw [getLoopRev_cons_fresh_ok h1 h2] at h
        simp only [List.mem_singleton, Ev.probe.injEq] at h
        subst h
        exact ⟨rt', by simp, h1⟩
    · rw [getLoopRev_cons_stale h1] at h
      simp only [List.mem_cons, reduceCtorEq, false_or] at h
      obtain ⟨rt, hm, hf⟩ := ih h
      exact ⟨rt, by simp [hm], hf⟩

theorem getLoopRev_none_close {p : Nat → Bool} {now timeout : Int} {c : Nat} {rt : Int}
    {l : List PoolEntry} (hres : (getLoopRev p now timeout l).1 = none)
    (hmem : (c, rt) ∈ l) (hstale : timeout ≤ now - rt) :
    Ev.close c ∈ (getLoopRev p now timeout l).2.2 := by
  induction l with
  | nil => simp at hmem
  | cons e rest ih =>
    obtain ⟨conn, rt'⟩ := e
    by_cases h1 : now - rt' < timeout
    · cases h2 : p conn with
      | false =>
        rw [getLoopRev_cons_fresh_bad h1 h2] at hres ⊢
        rcases List.mem_cons.mp hmem with he | hm
        · cases he
          exact absurd h1 (not_lt.mpr hstale)
        · exact List.mem_cons_of_mem _ (List.mem_cons_of_mem _ (ih hres hm))
      | true =>
        rw [getLoopRev_cons_fresh_ok h1 h2] at hres
        simp at hres
    · rw [getLoopRev_cons_stale h1] at hres ⊢
      rcases List.mem_cons.mp hmem with he | hm
      · cases he
        exact List.mem_cons_self _ _
      · exact List.mem_cons_of_mem _ (ih hres hm)

/-- Claim C2: an entry `put` at time `t` is never returned by a `get` at time
`now` with `now - t ≥ idle_timeout`, where the timeout is the one configured
on the pool at lookup time: (1) any connection `get` returns is backed by an
entry of the key's list that is fresh against the current `idle_timeout` and
passed the liveness probe; (2) a liveness probe only ever runs on a fresh
entry, so stale entries are discarded without a probe; (3) when the search
exhausts the key's list, every stale entry was closed (close errors
swallowed — `get` is total) and the search continued past it. -/
theorem C2_theorem :
    ∀ (s : PoolState) (key : String) (now : Int) (p : Nat → Bool),
      (∀ c, (s.get key now p).1 = some c →
        ∃ rt, (c, rt) ∈ keyPool s key ∧ now - rt < s.idle_timeout ∧ p c = true) ∧
      (∀ c, Ev.probe c ∈ (s.get key now p).2.2 →
        ∃ rt, (c, rt) ∈ keyPool s key ∧ now - rt < s.idle_timeout) ∧
      ((s.get key now p).1 = none → s.enabled = true →
        ∀ c rt, (c, rt) ∈ keyPool s key → s.idle_timeout ≤ now - rt →
          Ev.close c ∈ (s.get key now p).2.2) := by
  intro s key now p
  cases hse : s.enabled with
  | false =>
    refine ⟨?_, ?_, ?_⟩
    · intro c h
      simp [PoolState.get, hse] at h
    · intro c h
      simp [PoolState.get, hse] at h
    · intro _ he
      exact absurd he (by simp [hse])
  | true =>
    refine ⟨?_, ?_, ?_⟩
    · intro c h
      simp only [PoolState.get, hse, Bool.not_true, Bool.false_eq_true, if_false] at h
      obtain ⟨rt, hm, hf, hp⟩ := getLoopRev_ret_mem h
      exact ⟨rt, List.mem_reverse.mp hm, hf, hp⟩
    · intro c h
      simp only [PoolState.get, hse, Bool.not_true, Bool.false_eq_true, if_false,
        List.mem_cons, List.mem_append, reduceCtorEq, false_or] at h
      rcases h with h | h
      · obtain ⟨rt, hm, hf⟩ := getLoopRev_probe_mem h
        exact ⟨rt, List.mem_reverse.mp hm, hf⟩
      · simp at h
    · intro hres _ c rt hmem hstale
      simp only [PoolState.get, hse, Bool.not_true, Bool.false_eq_true, if_false] at hres ⊢
      have hm : (c, rt) ∈ (keyPool s key).reverse := List.mem_reverse.mpr hmem
      have := getLoopRev_none_close hres hm hstale
      simp [this]

/-- Witness for C2: an entry stored at `t = 0` under a pool whose timeout is
later reconfigured to 10 is, at `now = 50`, closed rather than returned —
judged by the timeout configured at lookup time. -/
theorem C2_witness :
    Ev.close 7 ∈ ((PoolState.get
        { pools := [("k", [(7, 0)])], enabled := true, max_size := 5, idle_timeout := 10 }
        "k" 50 (fun _ => true)).2.2) :=
  (C2_theorem
      { pools := [("k", [(7, 0)])], enabled := true, max_size := 5, idle_timeout := 10 }
      "k" 50 (fun _ => true)).2.2 (by decide) rfl 7 0 (by decide) (by decide)

/-! ### Claim C3: reuse order per key is last-in-first-out -/

theorem keyPool_listSet_self (key : String) (v : List PoolEntry)
    (ps : List (String × List PoolEntry)) (e : Bool) (m : Nat) (t : Int) :
    keyPool ⟨listSet key v ps, e, m, t⟩ key = v := by
  simp [keyPool, alookup_listSet_self]

/-- Claim C3: after `put(key, A)` then `put(key, B)` with both stored (the
pool is enabled and has room for both), the next `get` pops B's entry first:
it returns `B` when B's entry is fresh and passes the probe (probing nothing
else), and when B's probe fails it goes on to consider A's entry next. -/
theorem C3_theorem :
    ∀ (s : PoolState) (key : String) (A B : Nat) (tA tB now : Int)
      (p cr : Nat → Bool) (s2 : PoolState),
      s.enabled = true →
      keyCount s key + 1 < s.max_size →
      s2 = ((s.put key A tA cr).1.put key B tB cr).1 →
      ((now - tB < s.idle_timeout → p B = true →
          (s2.get key now p).1 = some B ∧
          (s2.get key now p).2.2 = [Ev.acquire, Ev.probe B, Ev.release]) ∧
       (now - tB < s.idle_timeout → p B = false →
          now - tA < s.idle_timeout → p A = true →
          (s2.get key now p).1 = some A ∧
          (s2.get key now p).2.2 =
            [Ev.acquire, Ev.probe B, Ev.close B, Ev.probe A, Ev.release])) := by
  intro s key A B tA tB now p cr s2 he hroom hs2
  have h1 : (keyPool s key).length < s.max_size := Nat.lt_of_succ_lt hroom
  have hs1 : (s.put key A tA cr).1
      = { s with pools := listSet key (keyPool s key ++ [(A, tA)]) s.pools } := by
    simp [PoolState.put, he, h1]
  have h2 : (keyPool s key).length + 1 < s.max_size := by
    simp only [keyCount] at hroom
    exact hroom
  have hs2' : s2 = { s with pools := listSet key ((keyPool s key ++ [(A, tA)]) ++ [(B, tB)]) (listSet key (keyPool s key ++ [(A, tA)]) s.pools) } := by
    rw [hs2, hs1]
    simp [PoolState.put, he, keyPool_listSet_self, h2]
  have hkp2 : keyPool s2 key = (keyPool s key ++ [(A, tA)]) ++ [(B, tB)] := by
    rw [hs2']
    simp [keyPool, alookup_listSet_self]
  have hen2 : s2.enabled = true := by rw [hs2']; exact he
  have hto2 : s2.idle_timeout = s.idle_timeout := by rw [hs2']
  have hrev : (keyPool s2 key).reverse
      = (B, tB) :: (A, tA) :: (keyPool s key).reverse := by
    rw [hkp2]; simp
  constructor
  · intro hfB hpB
    have hfB2 : now - tB < s2.idle_timeout := by rw [hto2]; exact hfB
    refine ⟨?_, ?_⟩ <;> simp [PoolState.get, hen2, hrev, getLoopRev, hfB2, hpB]
  · intro hfB hpB hfA hpA
    have hfB2 : now - tB < s2.idle_timeout := by rw [hto2]; exact hfB
    have hfA2 : now - tA < s2.idle_timeout := by rw [hto2]; exact hfA
    refine ⟨?_, ?_⟩ <;> simp [PoolState.get, hen2, hrev, getLoopRev, hfB2, hpB, hfA2, hpA]

/-- Witness for C3: with connections 1 then 2 stored for "k", a `get` whose
probe accepts connection 2 returns 2 after probing only 2. -/
theorem C3_witness :
    ((((PoolState.put { pools := [], enabled := true, max_size := 5, idle_timeout := 100 }
          "k" 1 0 (fun _ => false)).1.put "k" 2 0 (fun _ => false)).1).get
        "k" 10 (fun c => decide (c = 2))).1 = some 2 ∧
    ((((PoolState.put { pools := [], enabled := true, max_size := 5, idle_timeout := 100 }
          "k" 1 0 (fun _ => false)).1.put "k" 2 0 (fun _ => false)).1).get
        "k" 10 (fun c => decide (c = 2))).2.2 = [Ev.acquire, Ev.probe 2, Ev.release] :=
  (C3_theorem { pools := [], enabled := true, max_size := 5, idle_timeout := 100 }
      "k" 1 2 0 0 10 (fun c => decide (c = 2)) (fun _ => false)
      (((PoolState.put { pools := [], enabled := true, max_size := 5, idle_timeout := 100 }
          "k" 1 0 (fun _ => false)).1.put "k" 2 0 (fun _ => false)).1)
      rfl (by decide) rfl).1 (by decide) (by decide)

/-! ### Claim C4: close failures during eviction/rejection -/

/-- Claim C4 is false as stated: a `close()` that raises while `put` rejects
the incoming connection DOES propagate to `put`'s caller, both when pooling
is disabled (the initial state) and when the key's list is full — the two
`conn.close()` calls in `put` are not wrapped in an exception handler. -/
theorem C4_counterexample :
    (PoolState.put initPool "k" 1 0 (fun _ => true)).2.1 = true ∧
    (PoolState.put
        { pools := [("k", [(5, 0)])], enabled := true, max_size := 1, idle_timeout := 10 }
        "k" 7 3 (fun _ => true)).2.1 = true :=
  ⟨by decide, by decide⟩

/-- Claim C4 (amended): `close()` exceptions raised while `get` discards an
entry (stale or probe-failed) are swallowed — `get` is a total function whose
behaviour cannot depend on close failures, since the source wraps every such
close in `try ... except Exception: pass`.  In `put`, however, an exception
propagates to the caller exactly when `put` rejects the incoming connection
(pooling disabled, or the key's list at/over `max_size`) and that
connection's bare `close()` raises. -/
theorem C4_theorem :
    ∀ (s : PoolState) (key : String) (conn : Nat) (now : Int) (cr : Nat → Bool),
      (s.put key conn now cr).2.1
        = (cr conn && !(s.enabled && decide (keyCount s key < s.max_size))) := by
  intro s key conn now cr
  cases hse : s.enabled with
  | false => simp [PoolState.put, hse]
  | true =>
    by_cases hroom : (keyPool s key).length < s.max_size
    · simp [PoolState.put, hse, keyCount, hroom]
    · simp [PoolState.put, hse, keyCount, hroom]

/-! ### Claim C5: disable closes everything and empties the pool -/

/-- Claim C5: `disable` empties every per-key list and clears the enabled
flag; its trace closes exactly the previously pooled connections (once per
pooled entry — hence exactly once per connection when the pooled connections
are distinct, as the ownership contract guarantees); afterwards every `get`
returns none with no events and an unchanged state, and every `put` closes
the incoming connection immediately instead of storing it, until `enable` is
called again. -/
theorem C5_theorem :
    ∀ (s : PoolState),
      ((s.disable).1.pools = [] ∧ (s.disable).1.enabled = false) ∧
      (s.disable).2 = Ev.acquire :: ((poolConns s).map Ev.close ++ [Ev.release]) ∧
      (∀ c, (poolConns s).Nodup → c ∈ poolConns s →
        ((s.disable).2.count (Ev.close c)) = 1) ∧
      (∀ key now p, ((s.disable).1).get key now p = (none, (s.disable).1, [])) ∧
      (∀ key conn now cr, ((s.disable).1).put key conn now cr
        = ((s.disable).1, cr conn, [Ev.close conn])) := by
  intro s
  refine ⟨⟨rfl, rfl⟩, rfl, ?_, ?_, ?_⟩
  · intro c hnd hmem
    have hinj : Function.Injective Ev.close := fun a b h => by injection h
    have h1 : ((poolConns s).map Ev.close).count (Ev.close c) = (poolConns s).count c :=
      List.count_map_of_injective _ _ hinj _
    have h2 : (poolConns s).count c = 1 := List.count_eq_one_of_mem hnd hmem
    simp [PoolState.disable, List.count_cons, List.count_append, h1, h2]
  · intro key now p
    simp [PoolState.disable, PoolState.get]
  · intro key conn now cr
    simp [PoolState.disable, PoolState.put]

/-- Witness for C5: disabling a pool holding connection 1 under "k" and
connection 2 under "m" closes connection 2 exactly once. -/
theorem C5_witness :
    ((PoolState.disable
        { pools := [("k", [(1, 0)]), ("m", [(2, 5)])], enabled := true,
          max_size := 3, idle_timeout := 10 }).2.count (Ev.close 2)) = 1 :=
  (C5_theorem
      { pools := [("k", [(1, 0)]), ("m", [(2, 5)])], enabled := true,
        max_size := 3, idle_timeout := 10 }).2.2.1 2 (by decide) (by decide)

/-! ### Claim C10: lock discipline around probes and closes -/

theorem getLoopRev_events_probe_close (p : Nat → Bool) (now timeout : Int)
    (l : List PoolEntry) :
    ∀ e ∈ (getLoopRev p now timeout l).2.2, e ≠ Ev.acquire ∧ e ≠ Ev.release := by
  induction l with
  | nil => simp [getLoopRev]
  | cons ent rest ih =>
    obtain ⟨conn, rt⟩ := ent
    by_cases h1 : now - rt < timeout
    · cases h2 : p conn with
      | false =>
        rw [getLoopRev_cons_fresh_bad h1 h2]
        intro e he
        simp only [List.mem_cons] at he
        rcases he with rfl | rfl | he
        · exact ⟨by simp, by simp⟩
        · exact ⟨by simp, by simp⟩
        · exact ih e he
      | true =>
        rw [getLoopRev_cons_fresh_ok h1 h2]
        intro e he
        simp only [List.mem_singleton] at he
        subst he
        exact ⟨by simp, by simp⟩
    · rw [getLoopRev_cons_stale h1]
      intro e he
      simp only [List.mem_cons] at he
      rcases he with rfl | he
      · exact ⟨by simp, by simp⟩
      · exact ih e he

theorem trace_ops_locked_append_pc (evs rest : List Ev) (d : Nat) (hd : 0 < d)
    (h : ∀ e ∈ evs, e ≠ Ev.acquire ∧ e ≠ Ev.release) :
    trace_ops_locked d (evs ++ rest) = trace_ops_locked d rest := by
  induction evs with
  | nil => rfl
  | cons e es ih =>
    have he := h e (by simp)
    have hrest : ∀ x ∈ es, x ≠ Ev.acquire ∧ x ≠ Ev.release :=
      fun x hx => h x (by simp [hx])
    cases e with
    | acquire => exact absurd rfl he.1
    | release => exact absurd rfl he.2
    | probe c =>
      simp only [List.cons_append, trace_ops_locked, List.append_eq]
      rw [ih hrest]
      simp [hd]
    | close c =>
      simp only [List.cons_append, trace_ops_locked, List.append_eq]
      rw [ih hrest]
      simp [hd]

/-- Claim C10 is false as stated: in `get` the whole search — including the
eviction `close` of a stale entry and the liveness probe — runs inside
`with self._lock:`, and in `put` the capacity-rejection `close` runs inside
the lock as well; the probe/close events do not happen at lock depth 0. -/
theorem C10_counterexample :
    trace_ops_unlocked 0 ((PoolState.get
        { pools := [("k", [(1, 0)])], enabled := true, max_size := 100, idle_timeout := 10 }
        "k" 100 (fun _ => true)).2.2) = false ∧
    trace_ops_unlocked 0 ((PoolState.put
        { pools := [("k", [(5, 0)])], enabled := true, max_size := 1, idle_timeout := 10 }
        "k" 7 3 (fun _ => true)).2.2) = false :=
  ⟨by decide, by decide⟩

/-- Claim C10 (amended): the opposite lock discipline holds — every probe and
close performed by `get` happens while the lock is held, as does the
capacity-rejection close in an enabled `put`; the only close that runs
without the lock is `put`'s disabled-path close of the incoming
connection. -/
theorem C10_theorem :
    (∀ (s : PoolState) (key : String) (now : Int) (p : Nat → Bool),
      trace_ops_locked 0 ((s.get key now p).2.2) = true) ∧
    (∀ (s : PoolState) (key : String) (conn : Nat) (now : Int) (cr : Nat → Bool),
      s.enabled = true → trace_ops_locked 0 ((s.put key conn now cr).2.2) = true) ∧
    (∀ (s : PoolState) (key : String) (conn : Nat) (now : Int) (cr : Nat → Bool),
      s.enabled = false → (s.put key conn now cr).2.2 = [Ev.close conn]) := by
  refine ⟨?_, ?_, ?_⟩
  · intro s key now p
    cases hse : s.enabled with
    | false => simp [PoolState.get, hse, trace_ops_locked]
    | true =>
      have hpc := getLoopRev_events_probe_close p now s.idle_timeout (keyPool s key).reverse
      simp only [PoolState.get, hse, Bool.not_true, Bool.false_eq_true, if_false,
        trace_ops_locked]
      rw [trace_ops_locked_append_pc _ _ (0 + 1) (by norm_num) hpc]
      rfl
  · intro s key conn now cr he
    by_cases hroom : (keyPool s key).length < s.max_size
    · simp [PoolState.put, he, hroom, trace_ops_locked]
    · simp [PoolState.put, he, hroom, trace_ops_locked]
  · intro s key conn now cr he
    simp [PoolState.put, he]

/-- Witness for C10's amended theorem: an enabled, full pool rejecting
connection 7 runs its close under the lock. -/
theorem C10_witness :
    trace_ops_locked 0 ((PoolState.put
        { pools := [("k", [(5, 0)])], enabled := true, max_size := 1, idle_timeout := 10 }
        "k" 7 3 (fun _ => false)).2.2) = true :=
  C10_theorem.2.1
    { pools := [("k", [(5, 0)])], enabled := true, max_size := 1, idle_timeout := 10 }
    "k" 7 3 (fun _ => false) rfl

/-! ### Claim C6: two-stage name resolution on Row -/

theorem find?_first {α : Type} (q : α → Bool) (pre : List α) (x : α) (post : List α)
    (hpre : ∀ y ∈ pre, q y = false) (hx : q x = true) :
    List.find? q (pre ++ x :: post) = some x := by
  induction pre with
  | nil => simp [List.find?_cons, hx]
  | cons y ys ih =>
    have hy := hpre y (by simp)
    simp [List.find?_cons, hy, ih (fun z hz => hpre z (by simp [hz]))]

/-- Claim C6: name-based access on a `Row` with a column map present first
checks the map for an exact-case match and returns the value at that
position; on a miss, when the owning cursor is configured case-insensitive,
it returns the value for the first case-folded match in declaration order;
and when neither path matches (in particular whenever case-insensitive mode
is off), it fails with an `AttributeError` naming the requested column. -/
theorem C6_theorem :
    ∀ (vs : List Value) (m : List (String × Nat)) (cur : Cursor) (name : String),
      (∀ pos v, alookup name m = some pos → vs[pos]? = some v →
        Row.getattr ⟨vs, some m, cur⟩ name = AttrResult.ok v) ∧
      (∀ pre k pos post v, alookup name m = none → cur.lowercase = true →
        m = pre ++ (k, pos) :: post →
        (∀ q ∈ pre, strLower q.1 ≠ strLower name) →
        strLower k = strLower name →
        vs[pos]? = some v →
        Row.getattr ⟨vs, some m, cur⟩ name = AttrResult.ok v) ∧
      (alookup name m = none →
        (cur.lowercase = false ∨ (∀ q ∈ m, strLower q.1 ≠ strLower name)) →
        Row.getattr ⟨vs, some m, cur⟩ name = AttrResult.attributeError name) := by
  intro vs m cur name
  refine ⟨?_, ?_, ?_⟩
  · intro pos v h1 h2
    simp [Row.getattr, h1, h2]
  · intro pre k pos post v h1 hlc hm hpre hk h2
    subst hm
    have hfind : List.find? (fun q => strLower q.1 == strLower name)
        (pre ++ (k, pos) :: post) = some (k, pos) := by
      apply find?_first
      · intro y hy
        have hne := hpre y hy
        simp [hne]
      · simp [hk]
    simp [Row.getattr, h1, hlc, hfind, h2]
  · intro h1 h2
    rcases h2 with h2 | h2
    · simp [Row.getattr, h1, h2]
    · cases hlc : cur.lowercase with
      | false => simp [Row.getattr, h1, hlc]
      | true =>
        have hfind : List.find? (fun q => strLower q.1 == strLower name) m = none := by
          rw [List.find?_eq_none]
          intro q hq
          simp [h2 q hq]
        simp [Row.getattr, h1, hlc, hfind]

/-- Witness for C6: with column map `{Name: 0}` and a case-insensitive
cursor, `row.name` resolves to the value stored at position 0. -/
theorem C6_witness :
    Row.getattr ⟨[Value.vStr "Bob"], some [("Name", 0)], ⟨true, none, fun _ => none⟩⟩ "name"
      = AttrResult.ok (Value.vStr "Bob") :=
  (C6_theorem [Value.vStr "Bob"] [("Name", 0)] ⟨true, none, fun _ => none⟩ "name").2.1
    [] "Name" 0 [] (Value.vStr "Bob") (by decide) rfl rfl (by simp) (by decide) rfl

/-! ### Claim C7: Row equality semantics -/

/-- Claim C7: a `Row` equals a plain list exactly when its value sequence
equals it elementwise; it equals another `Row` exactly when the underlying
value sequences compare equal; any other operand falls back to the default
identity-like comparison; and in particular the `Row` built from
`(1, "x", None)` equals the plain sequence `[1, "x", None]`. -/
theorem C7_theorem :
    ∀ (r : Row) (l : List Value) (r2 : Row) (b : Bool),
      (r.eq (PyOperand.list l) = true ↔ r.values = l) ∧
      (r.eq (PyOperand.row r2) = true ↔ r.values = r2.values) ∧
      (r.eq (PyOperand.other b) = b) ∧
      (Row.eq ⟨[Value.vInt 1, Value.vStr "x", Value.vNone],
          some [("a", 0), ("b", 1), ("c", 2)], ⟨false, none, fun _ => none⟩⟩
        (PyOperand.list [Value.vInt 1, Value.vStr "x", Value.vNone]) = true) := by
  intro r l r2 b
  refine ⟨?_, ?_, rfl, by decide⟩
  · simp [Row.eq]
  · simp [Row.eq]

/-! ### Claim C8: output conversion is best-effort and per-position -/

theorem convertZip_length (cur : Cursor) (vs : List Value) (ds : List (Option Desc)) :
    (convertZip cur vs ds).length = vs.length := by
  induction vs generalizing ds with
  | nil => simp [convertZip]
  | cons v vt ih =>
    cases ds with
    | nil => simp [convertZip]
    | cons d dt => simp [convertZip, ih]

theorem convertZip_nil (cur : Cursor) (vs : List Value) :
    convertZip cur vs [] = vs := by
  cases vs <;> rfl

theorem convertZip_getElem (cur : Cursor) (vs : List Value) (ds : List (Option Desc))
    (i : Nat) (v : Value) (h : vs[i]? = some v) :
    (convertZip cur vs ds)[i]? = some (convertOne cur v ((ds[i]?).getD none)) := by
  induction vs generalizing ds i with
  | nil => simp at h
  | cons x xt ih =>
    cases ds with
    | nil =>
      rw [convertZip_nil]
      simp only [List.getElem?_nil, Option.getD_none]
      rw [h]
      cases v <;> rfl
    | cons d dt =>
      cases i with
      | zero =>
        simp only [List.getElem?_cons_zero, Option.some.injEq] at h
        subst h
        simp [convertZip]
      | succ n =>
        simp only [convertZip, List.getElem?_cons_succ]
        exact ih dt n (by simpa using h)

/-- Claim C8: applying output converters is best-effort and per-position.
Position `i`'s result depends only on its own value and descriptor;
positions with an absent descriptor or a null value are left untouched; and
a converter that raises (returns `none` in the model) — found either through
the primary SQL-type lookup or through the `SQL_WVARCHAR` fallback — leaves
that position's original value unchanged while every other position is still
converted according to its own value and descriptor. -/
theorem C8_theorem :
    ∀ (r : Row) (cur : Cursor) (descr : Option (List (Option Desc))) (i : Nat) (v : Value),
      (r.values[i]? = some v →
        ((r.apply_output_converters cur descr).values)[i]?
          = some (convertOne cur v (((descr.getD [])[i]?).getD none))) ∧
      (convertOne cur v none = v) ∧
      (∀ d, convertOne cur Value.vNone d = Value.vNone) ∧
      (∀ d c, cur.get_output_converter d.sql_type = some c →
        c (convInput v) = none → convertOne cur v (some d) = v) ∧
      (∀ d c, cur.get_output_converter d.sql_type = none →
        isStrOrBytes v = true → cur.get_output_converter SQL_WVARCHAR = some c →
        c (convInput v) = none → convertOne cur v (some d) = v) := by
  intro r cur descr i v
  refine ⟨?_, ?_, ?_, ?_, ?_⟩
  · intro h
    cases descr with
    | none =>
      simp only [Row.apply_output_converters, Option.getD_none, List.getElem?_nil,
        Option.getD_none]
      rw [h]
      cases v <;> rfl
    | some ds =>
      cases ds with
      | nil =>
        simp only [Row.apply_output_converters, Option.getD_some, List.getElem?_nil,
          Option.getD_none]
        rw [h]
        cases v <;> rfl
      | cons d dt =>
        simp only [Row.apply_output_converters, Option.getD_some]
        exact convertZip_getElem cur r.values (d :: dt) i v h
  · cases v <;> rfl
  · intro d
    cases d <;> rfl
  · intro d c hc hraise
    simp only [convInput] at hraise
    cases v <;> simp_all [convertOne]
  · intro d c hc0 hsb hcw hraise
    simp only [convInput] at hraise
    cases v <;> simp_all [convertOne, isStrOrBytes]

/-- Witness for C8: with a converter that raises registered for SQL type 5
and a successful one for type 6, converting the row `(1, 2)` against
descriptors typed 5 and 6 leaves position 0 as computed by `convertOne` —
its original value 1 — while position 1 is converted independently. -/
theorem C8_witness :
    ((Row.apply_output_converters
        ⟨[Value.vInt 1, Value.vInt 2], none, ⟨false, none, fun _ => none⟩⟩
        ⟨false, none, fun t => if t = 5 then some (fun _ => none)
          else if t = 6 then some (fun _ => some (Value.vInt 99)) else none⟩
        (some [some ⟨"a", 5⟩, some ⟨"b", 6⟩])).values)[0]?
      = some (convertOne
          ⟨false, none, fun t => if t = 5 then some (fun _ => none)
            else if t = 6 then some (fun _ => some (Value.vInt 99)) else none⟩
          (Value.vInt 1)
          ((((some [some (⟨"a", 5⟩ : Desc), some ⟨"b", 6⟩] :
              Option (List (Option Desc))).getD [])[0]?).getD none)) :=
  (C8_theorem
      ⟨[Value.vInt 1, Value.vInt 2], none, ⟨false, none, fun _ => none⟩⟩
      ⟨false, none, fun t => if t = 5 then some (fun _ => none)
        else if t = 6 then some (fun _ => some (Value.vInt 99)) else none⟩
      (some [some ⟨"a", 5⟩, some ⟨"b", 6⟩]) 0 (Value.vInt 1)).1 rfl

/-! ### Claim C9: the three lengths agree and stay in agreement -/

/-- Claim C9: a `Row` built by the fetch path (modelled from the spec by
`mkRow`: one value per descriptor, a column map with one entry per
descriptor) satisfies the length invariant, and `apply_output_converters` —
the only `Row` operation that rewrites state — preserves it for any cursor
and descriptor arguments. -/
theorem C9_theorem :
    (∀ (cur : Cursor) (descs : List Desc) (vals : List Value),
      vals.length = descs.length →
      cur.description = some (descs.map some) →
      RowLens (mkRow cur descs vals)) ∧
    (∀ (r : Row) (cur2 : Cursor) (descr : Option (List (Option Desc))),
      RowLens r → RowLens (r.apply_output_converters cur2 descr)) := by
  constructor
  · intro cur descs vals hlen hdesc
    intro m ds hm hds
    have hm' : m = descs.enum.map (fun q => (q.2.name, q.1)) := by
      simp only [mkRow, Option.some.injEq] at hm
      exact hm.symm
    have hds' : ds = descs.map some := by
      simp only [mkRow] at hds
      rw [hdesc] at hds
      exact (Option.some.injEq _ _ ▸ hds).symm
    subst hm' hds'
    constructor
    · simpa [mkRow] using hlen
    · simp
  · intro r cur2 descr hr
    intro m ds hm hds
    cases descr with
    | none => exact hr m ds hm hds
    | some l =>
      cases l with
      | nil => exact hr m ds hm hds
      | cons d dt =>
        simp only [Row.apply_output_converters] at hm hds ⊢
        obtain ⟨h1, h2⟩ := hr m ds hm hds
        exact ⟨by simpa [convertZip_length] using h1, h2⟩

/-- Witness for C9: a one-column fetch (descriptor "a" of type 1, value 3)
yields a row satisfying the length invariant. -/
theorem C9_witness :
    RowLens (mkRow ⟨false, some [some ⟨"a", 1⟩], fun _ => none⟩ [⟨"a", 1⟩] [Value.vInt 3]) :=
  C9_theorem.1 ⟨false, some [some ⟨"a", 1⟩], fun _ => none⟩ [⟨"a", 1⟩] [Value.vInt 3] rfl rfl
